import Mathlib

/-
Verification development for the stock-analytics script (src/app.py).

The numeric pipeline of the script runs on pandas/numpy float series.  We
embed it shallowly: finite float values are modelled by exact rationals or
reals (rounding is idealised away), while the IEEE special values NaN and
±Infinity — which several claims are about — are modelled explicitly by the
carrier type FV below, with the IEEE rules for the arithmetic the script
performs on them (division by zero, NaN propagation, operations with
infinities).  Missing data (pandas NaN cells) is also FV.nan, matching
pandas, where missing data and invalid-operation results are both NaN.
Transcendental steps of the script (np.log, np.exp, np.sqrt, scipy
norm.ppf) are embedded over the reals.
-/

namespace StockApp

/-- Model of an IEEE floating-point value over an exact carrier: NaN,
positive/negative infinity, or a finite value. -/
inductive FV (α : Type) where
  | nan : FV α
  | pinf : FV α
  | ninf : FV α
  | fin : α → FV α
deriving DecidableEq, Repr

variable {α : Type} [LinearOrderedField α]

/-- IEEE negation on modelled floats. -/
def fneg : FV α → FV α
  | .nan => .nan
  | .pinf => .ninf
  | .ninf => .pinf
  | .fin a => .fin (-a)

/-- IEEE addition on modelled floats: NaN propagates, opposite infinities
give NaN, an infinity absorbs finite values. -/
def fadd : FV α → FV α → FV α
  | .nan, _ => .nan
  | _, .nan => .nan
  | .pinf, .ninf => .nan
  | .ninf, .pinf => .nan
  | .pinf, _ => .pinf
  | _, .pinf => .pinf
  | .ninf, _ => .ninf
  | _, .ninf => .ninf
  | .fin a, .fin b => .fin (a + b)

/-- IEEE subtraction on modelled floats. -/
def fsub (a b : FV α) : FV α := fadd a (fneg b)

/-- IEEE multiplication on modelled floats: NaN propagates, infinity times
zero is NaN, otherwise signs combine. -/
def fmul : FV α → FV α → FV α
  | .nan, _ => .nan
  | _, .nan => .nan
  | .fin a, .fin b => .fin (a * b)
  | .pinf, .pinf => .pinf
  | .pinf, .ninf => .ninf
  | .ninf, .pinf => .ninf
  | .ninf, .ninf => .pinf
  | .pinf, .fin b => if 0 < b then .pinf else if b < 0 then .ninf else .nan
  | .ninf, .fin b => if 0 < b then .ninf else if b < 0 then .pinf else .nan
  | .fin a, .pinf => if 0 < a then .pinf else if a < 0 then .ninf else .nan
  | .fin a, .ninf => if 0 < a then .ninf else if a < 0 then .pinf else .nan

/-- IEEE division on modelled floats (numpy semantics): 0/0 is NaN, x/0 for
x positive (negative) is +Inf (-Inf), finite over infinite is 0, infinite
over infinite is NaN, NaN propagates. -/
def fdiv : FV α → FV α → FV α
  | .nan, _ => .nan
  | _, .nan => .nan
  | .fin a, .fin b =>
      if b = 0 then (if 0 < a then .pinf else if a < 0 then .ninf else .nan)
      else .fin (a / b)
  | .fin _, .pinf => .fin 0
  | .fin _, .ninf => .fin 0
  | .pinf, .fin b => if b < 0 then .ninf else .pinf
  | .ninf, .fin b => if b < 0 then .pinf else .ninf
  | .pinf, .pinf => .nan
  | .pinf, .ninf => .nan
  | .ninf, .pinf => .nan
  | .ninf, .ninf => .nan

/-- Value of a pandas rolling(window=w).f() column over a NaN-free series:
entry i is f of the trailing w entries (inclusive of bar i) once i+1 >= w,
and the NaN sentinel before that (pandas min_periods defaults to the
window size). -/
def rollingApply (w : ℕ) (f : List α → α) (xs : List α) : List (FV α) :=
  (List.range xs.length).map fun i =>
    if w ≤ i + 1 then FV.fin (f ((xs.drop (i + 1 - w)).take w)) else FV.nan

/-- Value of a pandas rolling(window=w).mean() column over a series that may
hold NaN cells: the trailing-window sum is taken with IEEE addition, so any
NaN inside the window makes the output NaN, and a short window is NaN. -/
def rollingMeanF (w : ℕ) (xs : List (FV α)) : List (FV α) :=
  (List.range xs.length).map fun i =>
    if w ≤ i + 1 then
      fdiv (((xs.drop (i + 1 - w)).take w).foldr fadd (FV.fin 0)) (FV.fin (w : α))
    else FV.nan

/-- Column data['Close'].rolling(window=w).mean() used for SMA_50, SMA_200
and SMA_20 in calculate_technical_indicators. -/
def smaCol (w : ℕ) (xs : List α) : List (FV α) :=
  rollingApply w (fun l => l.sum / (w : α)) xs

/-- Column data['Close'].diff() from the RSI branch of
calculate_technical_indicators: entry 0 is NaN, entry i+1 is
close[i+1] - close[i]. -/
def rsi_delta (xs : List α) : List (FV α) :=
  (List.range xs.length).map fun i =>
    match i with
    | 0 => FV.nan
    | j + 1 => FV.fin (xs.getD (j + 1) 0 - xs.getD j 0)

/-- Elementwise delta.where(delta > 0, 0) from the RSI branch: keeps a
positive finite delta, replaces everything whose comparison with 0 is false
(including NaN) by 0. -/
def gainOfDelta : FV α → FV α
  | .fin v => if 0 < v then .fin v else .fin 0
  | .pinf => .pinf
  | _ => .fin 0

/-- Elementwise -delta.where(delta < 0, 0) from the RSI branch: keeps the
negated negative finite delta, replaces everything whose comparison with 0
is false (including NaN) by 0. -/
def lossOfDelta : FV α → FV α
  | .fin v => if v < 0 then .fin (-v) else .fin 0
  | .ninf => .pinf
  | _ => .fin 0

/-- Column gain.rolling(window=14).mean() of the RSI branch. -/
def rsi_avgGain (xs : List α) : List (FV α) :=
  rollingMeanF 14 ((rsi_delta xs).map gainOfDelta)

/-- Column loss.rolling(window=14).mean() of the RSI branch. -/
def rsi_avgLoss (xs : List α) : List (FV α) :=
  rollingMeanF 14 ((rsi_delta xs).map lossOfDelta)

/-- Column rs = gain / loss of the RSI branch (elementwise IEEE division of
the two rolling means). -/
def rsi_rs (xs : List α) : List (FV α) :=
  List.zipWith fdiv (rsi_avgGain xs) (rsi_avgLoss xs)

/-- Column data['RSI'] = 100 - (100 / (1 + rs)) of
calculate_technical_indicators. -/
def rsiCol (xs : List α) : List (FV α) :=
  (rsi_rs xs).map fun r => fsub (.fin 100) (fdiv (.fin 100) (fadd (.fin 1) r))

/-- Tail of the EMA recurrence ema[i] = a*x[i] + (1-a)*ema[i-1] given the
smoothing factor a and the previous EMA value. -/
def emaAux (a : α) : α → List α → List α
  | _, [] => []
  | prev, x :: rest =>
      let e := a * x + (1 - a) * prev
      e :: emaAux a e rest

/-- Column series.ewm(span=s, adjust=False).mean() used by the MACD branch:
ema[0] = x[0], ema[i] = a*x[i] + (1-a)*ema[i-1] with a = 2/(s+1); defined
from index 0 with no warm-up gap. -/
def emaList (s : ℕ) : List α → List α
  | [] => []
  | x :: rest => x :: emaAux (2 / ((s : α) + 1)) x rest

/-- Column data['MACD'] = EMA(close,12) - EMA(close,26) of the MACD
branch. -/
def macdCol (xs : List α) : List α :=
  List.zipWith (fun a b => a - b) (emaList 12 xs) (emaList 26 xs)

/-- Column data['Signal'] = EMA(MACD, 9) of the MACD branch. -/
def signalCol (xs : List α) : List α :=
  emaList 9 (macdCol xs)

/-- Sample standard deviation with ddof = 1, the default of pandas
Series.std and rolling(...).std: sqrt of sum of squared deviations from the
mean divided by (n - 1). -/
noncomputable def sampleStdR (l : List ℝ) : ℝ :=
  Real.sqrt (((l.map fun x => (x - l.sum / l.length) ^ 2).sum) / ((l.length : ℝ) - 1))

/-- Column data['Close'].rolling(window=20).std() of the Bollinger
branch. -/
noncomputable def bollStdCol (xs : List ℝ) : List (FV ℝ) :=
  rollingApply 20 sampleStdR xs

/-- Column data['Upper Band'] = SMA_20 + STD_20 * 2 of the Bollinger
branch (elementwise IEEE arithmetic on the two columns). -/
noncomputable def bollUpperCol (xs : List ℝ) : List (FV ℝ) :=
  List.zipWith (fun m s => fadd m (fmul s (.fin 2))) (smaCol 20 xs) (bollStdCol xs)

/-- Column data['Lower Band'] = SMA_20 - STD_20 * 2 of the Bollinger
branch. -/
noncomputable def bollLowerCol (xs : List ℝ) : List (FV ℝ) :=
  List.zipWith (fun m s => fsub m (fmul s (.fin 2))) (smaCol 20 xs) (bollStdCol xs)

/-- State of the pandas DataFrame holding the downloaded price history: the
five OHLCV data columns plus whatever indicator columns have been assigned
into the frame (name, values), in assignment order. -/
structure Frame where
  openCol : List ℝ
  highCol : List ℝ
  lowCol : List ℝ
  closeCol : List ℝ
  volumeCol : List ℝ
  extras : List (String × List (FV ℝ))

/-- Effect of the pandas item assignment data[name] = col: the frame state
gains (or rebinds) the named column.  The source only ever assigns fresh
indicator names, so we model assignment as appending the column. -/
def addCol (f : Frame) (name : String) (col : List (FV ℝ)) : Frame :=
  { f with extras := f.extras ++ [(name, col)] }

/-- Shallow embedding of calculate_technical_indicators (src/app.py lines
94-115).  Python passes the DataFrame by reference and the function assigns
columns into it in place; the embedding threads the frame state through the
same sequence of conditional column assignments and returns the final state
of that same object. -/
noncomputable def calculate_technical_indicators (data : Frame) (ta_options : List String) :
    Frame :=
  let d1 := if "SMA 50" ∈ ta_options then addCol data "SMA_50" (smaCol 50 data.closeCol) else data
  let d2 := if "SMA 200" ∈ ta_options then addCol d1 "SMA_200" (smaCol 200 d1.closeCol) else d1
  let d3 := if "RSI" ∈ ta_options then addCol d2 "RSI" (rsiCol d2.closeCol) else d2
  let d4 :=
    if "MACD" ∈ ta_options then
      addCol (addCol d3 "MACD" ((macdCol d3.closeCol).map FV.fin)) "Signal"
        ((signalCol d3.closeCol).map FV.fin)
    else d3
  let d5 :=
    if "Bollinger Bands" ∈ ta_options then
      addCol (addCol (addCol (addCol d4 "SMA_20" (smaCol 20 d4.closeCol)) "STD_20"
        (bollStdCol d4.closeCol)) "Upper Band" (bollUpperCol d4.closeCol)) "Lower Band"
        (bollLowerCol d4.closeCol)
    else d4
  d5

/-- Percentage returns close[i+1]/close[i] - 1, the values produced by
data['Close'].pct_change() after its leading NaN. -/
noncomputable def pairwisePctReturns (xs : List ℝ) : List ℝ :=
  List.zipWith (fun a b => b / a - 1) xs xs.tail

/-- Column series.pct_change(): empty on an empty series, otherwise a
leading NaN (None) followed by the percentage returns. -/
noncomputable def pct_change_col (xs : List ℝ) : List (Option ℝ) :=
  match xs with
  | [] => []
  | _ :: _ => none :: (List.zipWith (fun a b => some (b / a - 1)) xs xs.tail)

/-- Series used by the Risk Analysis tab (src/app.py line 242):
stock_data['Close'].pct_change().dropna(). -/
noncomputable def tab4_returns (xs : List ℝ) : List ℝ :=
  (pct_change_col xs).reduceOption

/-- Mean of a list of reals, as pandas Series.mean computes it on a NaN-free
series: sum divided by length. -/
noncomputable def listMean (l : List ℝ) : ℝ := l.sum / l.length

/-- Annualized volatility of the Risk Analysis tab (src/app.py line 249):
returns.std() * np.sqrt(252). -/
noncomputable def tab4_annualized_volatility (xs : List ℝ) : ℝ :=
  sampleStdR (tab4_returns xs) * Real.sqrt 252

/-- Sharpe ratio of the Risk Analysis tab (src/app.py line 253):
returns.mean() / returns.std() * np.sqrt(252). -/
noncomputable def tab4_sharpe (xs : List ℝ) : ℝ :=
  listMean (tab4_returns xs) / sampleStdR (tab4_returns xs) * Real.sqrt 252

/-- Cumulative distribution function of the standard normal law, the
distribution underlying scipy.stats.norm. -/
noncomputable def stdNormCdf (x : ℝ) : ℝ :=
  ProbabilityTheory.cdf (ProbabilityTheory.gaussianReal 0 1) x

/-- Quantile function of the standard normal law, as a generalized inverse
of its CDF. -/
noncomputable def stdNormPpf (p : ℝ) : ℝ :=
  sInf {x | p ≤ stdNormCdf x}

/-- Modelled from the scipy documentation of the external collaborator
scipy.stats.norm.ppf(q, loc, scale), the percent-point function of the
normal law with the given location and scale: loc + scale * PPF(q) of the
standard normal. -/
noncomputable def norm_ppf (q loc scale : ℝ) : ℝ :=
  loc + scale * stdNormPpf q

/-- Value-at-Risk of the Risk Analysis tab (src/app.py line 245):
norm.ppf(1 - confidence, returns.mean(), returns.std()). -/
noncomputable def tab4_var (xs : List ℝ) (confidence : ℝ) : ℝ :=
  norm_ppf (1 - confidence) (listMean (tab4_returns xs)) (sampleStdR (tab4_returns xs))

/-- The same Value-at-Risk computation with the return-distribution
parameters mu and sigma held fixed, as in the monotonicity property. -/
noncomputable def varParams (mu sigma confidence : ℝ) : ℝ :=
  norm_ppf (1 - confidence) mu sigma

/-- Log-return series used to calibrate the Monte Carlo simulation
(src/app.py line 119): np.log(1 + data['Close'].pct_change()); the leading
NaN produced by pct_change is dropped here because the only consumers are
Series.mean and Series.std, which skip NaN. -/
noncomputable def mcReturns (xs : List ℝ) : List ℝ :=
  (pairwisePctReturns xs).map fun r => Real.log (1 + r)

/-- Simulated price path of monte_carlo_simulation: prices = [S]; then
steps times, prices.append(prices[-1] * exp(shock)) with shock =
np.random.normal(mu, sigma).  The global numpy generator is modelled as a
stream z of standard-normal draws together with a cursor k; draw k yields
the shock mu + sigma * z k. -/
noncomputable def mcPath (mu sigma : ℝ) (z : ℕ → ℝ) : ℝ → ℕ → ℕ → List ℝ
  | p, _, 0 => [p]
  | p, k, n + 1 => p :: mcPath mu sigma z (p * Real.exp (mu + sigma * z k)) (k + 1) n

/-- Shallow embedding of monte_carlo_simulation (src/app.py lines 118-134).
The function has no seed parameter; it reads the global numpy generator,
modelled by the draw stream z and the cursor position k at call time.  Path
i consumes draws k + i*(days-1), ..., k + (i+1)*(days-1) - 1.  The result
grid is the list of simulated columns; none models an uncaught exception
(indexing data['Close'][-1] on an empty series, or the shape mismatch of
results[:,i] = prices when len(prices) differs from days). -/
noncomputable def monte_carlo_simulation (closes : List ℝ) (simulations days : ℕ)
    (z : ℕ → ℝ) (k : ℕ) : Option (List (List ℝ)) :=
  match closes.getLast? with
  | none => none
  | some S =>
      let rets := mcReturns closes
      let mu := listMean rets
      let sigma := sampleStdR rets
      let cols := (List.range simulations).map fun i =>
        mcPath mu sigma z S (k + i * (days - 1)) (days - 1)
      if cols.all (fun c => c.length = days) then some cols else none

/-- Log returns as the specification defines them: element i equals
ln(close[i+1]/close[i]). -/
noncomputable def specLogReturns (xs : List ℝ) : List ℝ :=
  List.zipWith (fun a b => Real.log (b / a)) xs xs.tail

/-- Trailing arithmetic mean as the specification words it: the mean of the
w close values ending at the current bar i, inclusive. -/
noncomputable def specTrailingMean (w : ℕ) (xs : List ℝ) (i : ℕ) : ℝ :=
  (∑ j ∈ Finset.range w, xs.getD (i + 1 - w + j) 0) / w

/-- Ordered duplicate-free insertion of a date key, used to build the
sorted union index pandas creates when aligning several Series into one
DataFrame. -/
def sortedInsertNat (d : ℕ) : List ℕ → List ℕ
  | [] => [d]
  | x :: rest =>
      if d = x then x :: rest
      else if d < x then d :: x :: rest
      else x :: sortedInsertNat d rest

/-- Sorted union of the date indexes of all series in the comparison input,
the row index of pd.DataFrame(compare_data). -/
def unionDates (input : List (String × List (ℕ × ℚ))) : List ℕ :=
  (input.flatMap fun p => p.2.map Prod.fst).foldr sortedInsertNat []

/-- Cell of the aligned comparison DataFrame for one ticker column at one
row date: the close value when the ticker's series has that date, NaN
otherwise. -/
def cellOf (s : List (ℕ × ℚ)) (d : ℕ) : FV ℚ :=
  match s.lookup d with
  | some v => .fin v
  | none => .nan

/-- Shallow embedding of the Comparison tab computation (src/app.py lines
271-283): compare_df = pd.DataFrame(compare_data) aligns every ticker's
close series on the sorted union of their date indexes, then
compare_normalized = compare_df / compare_df.iloc[0] divides each aligned
column by that column's entry in the first aligned row. -/
def tab5_normalized (input : List (String × List (ℕ × ℚ))) :
    List (String × List (FV ℚ)) :=
  let ds := unionDates input
  input.map fun p =>
    (p.1, ds.map fun d =>
      fdiv (cellOf p.2 d) (match ds.head? with
        | some d0 => cellOf p.2 d0
        | none => FV.nan))


/-
Theorems.  Claim theorems are marked with their claim id; everything else
is a helper lemma.
-/

theorem rollingApply_length (w : ℕ) (f : List α → α) (xs : List α) :
    (rollingApply w f xs).length = xs.length := by
  simp [rollingApply]

theorem rollingApply_get? (w : ℕ) (f : List α → α) (xs : List α) (i : ℕ)
    (hi : i < xs.length) :
    (rollingApply w f xs).get? i =
      some (if w ≤ i + 1 then FV.fin (f ((xs.drop (i + 1 - w)).take w)) else FV.nan) := by
  simp [rollingApply, List.get?_eq_getElem?, List.getElem?_map, List.getElem?_range hi]

theorem list_sum_getD (l : List ℝ) :
    l.sum = ∑ j ∈ Finset.range l.length, l.getD j 0 := by
  induction l with
  | nil => simp
  | cons x t ih =>
      simp only [List.sum_cons, List.length_cons, Finset.sum_range_succ',
        List.getD_cons_succ, List.getD_cons_zero, ih]
      ring

theorem window_sum (xs : List ℝ) (a w : ℕ) (h : a + w ≤ xs.length) :
    ((xs.drop a).take w).sum = ∑ j ∈ Finset.range w, xs.getD (a + j) 0 := by
  have hlen : ((xs.drop a).take w).length = w := by
    simp [List.length_take, List.length_drop]
    omega
  rw [list_sum_getD, hlen]
  refine Finset.sum_congr rfl fun j hj => ?_
  have hj2 : j < w := Finset.mem_range.mp hj
  rw [List.getD_eq_getElem?_getD, List.getD_eq_getElem?_getD, List.getElem?_take,
    if_pos hj2, List.getElem?_drop]

/-- C5: for every price series and window w >= 1, the SMA(w) column has the
same length as the series, its first w-1 entries are the NaN sentinel, and
every entry from index w-1 on equals the arithmetic mean of the trailing w
close values inclusive of the current bar. -/
theorem sma_trailing_mean (w : ℕ) (xs : List ℝ) (hw : 1 ≤ w) :
    (smaCol w xs).length = xs.length ∧
    (∀ i, i < w - 1 → i < xs.length → (smaCol w xs).get? i = some FV.nan) ∧
    (∀ i, w - 1 ≤ i → i < xs.length →
      (smaCol w xs).get? i = some (FV.fin (specTrailingMean w xs i))) := by
  refine ⟨rollingApply_length _ _ _, fun i h1 h2 => ?_, fun i h1 h2 => ?_⟩
  · rw [smaCol, rollingApply_get? _ _ _ _ h2, if_neg (by omega)]
  · rw [smaCol, rollingApply_get? _ _ _ _ h2, if_pos (by omega)]
    rw [specTrailingMean, window_sum xs (i + 1 - w) w (by omega)]

/-- Witness for C5 at window 3 on a four-bar series. -/
theorem sma_trailing_mean_witness :
    1 ≤ 3 ∧
    ((smaCol 3 [(1:ℝ), 2, 3, 4]).length = [(1:ℝ), 2, 3, 4].length ∧
      (∀ i, i < 3 - 1 → i < [(1:ℝ), 2, 3, 4].length →
        (smaCol 3 [(1:ℝ), 2, 3, 4]).get? i = some FV.nan) ∧
      (∀ i, 3 - 1 ≤ i → i < [(1:ℝ), 2, 3, 4].length →
        (smaCol 3 [(1:ℝ), 2, 3, 4]).get? i =
          some (FV.fin (specTrailingMean 3 [(1:ℝ), 2, 3, 4] i)))) :=
  ⟨by norm_num, sma_trailing_mean 3 [1, 2, 3, 4] (by norm_num)⟩

/-- C1: on a 14-bar constant price series every delta in the window is
non-negative (indeed zero) and the trailing average loss at index 13 is
exactly 0, yet the RSI column of calculate_technical_indicators holds NaN
there, not 100: rs = avgGain/avgLoss = 0/0 is NaN and propagates, instead
of being clamped to 100 as the specification mandates. -/
theorem rsi_nan_on_constant_series :
    (rsi_avgLoss (List.replicate 14 (100:ℚ))).get? 13 = some (FV.fin 0) ∧
    (rsiCol (List.replicate 14 (100:ℚ))).get? 13 = some FV.nan := by
  constructor <;>
    norm_num [rsiCol, rsi_rs, rsi_avgGain, rsi_avgLoss, rollingMeanF, rsi_delta,
      gainOfDelta, lossOfDelta, fdiv, fadd, fneg, fsub, List.range_succ,
      List.replicate, List.zipWith, List.get?]


/-- C4 counterexample: requesting the SMA 50 indicator adds a column to the
frame object (the same object Python mutates in place), so the input does
gain new observable state. -/
theorem calc_indicators_mutates_frame :
    (calculate_technical_indicators ⟨[], [], [], [1, 2, 3], [], []⟩ ["SMA 50"]).extras ≠
      (⟨[], [], [], [1, 2, 3], [], []⟩ : Frame).extras := by
  simp [calculate_technical_indicators, addCol]

/-- C4 amended: calculate_technical_indicators never changes the five OHLCV
data columns, but it does append the requested indicator columns to the
frame state in place (the original columns stay an unchanged initial
segment of the column list). -/
theorem calc_indicators_preserves_ohlcv (data : Frame) (ta_options : List String) :
    (calculate_technical_indicators data ta_options).openCol = data.openCol ∧
    (calculate_technical_indicators data ta_options).highCol = data.highCol ∧
    (calculate_technical_indicators data ta_options).lowCol = data.lowCol ∧
    (calculate_technical_indicators data ta_options).closeCol = data.closeCol ∧
    (calculate_technical_indicators data ta_options).volumeCol = data.volumeCol ∧
    ((calculate_technical_indicators data ta_options).extras).take data.extras.length
      = data.extras := by
  unfold calculate_technical_indicators
  split_ifs <;> simp [addCol, List.append_assoc, List.take_left]

theorem mcPath_length (mu sigma : ℝ) (z : ℕ → ℝ) (p : ℝ) (k n : ℕ) :
    (mcPath mu sigma z p k n).length = n + 1 := by
  induction n generalizing p k with
  | zero => rfl
  | succ n ih => simp [mcPath, ih]

theorem mcPath_pos (mu sigma : ℝ) (z : ℕ → ℝ) (p : ℝ) (k n : ℕ) (hp : 0 < p) :
    ∀ x ∈ mcPath mu sigma z p k n, 0 < x := by
  induction n generalizing p k with
  | zero =>
      intro x hx
      rw [mcPath] at hx
      simp at hx
      exact hx ▸ hp
  | succ n ih =>
      intro x hx
      rw [mcPath] at hx
      simp at hx
      rcases hx with h | h
      · exact h ▸ hp
      · exact ih (p * Real.exp (mu + sigma * z k)) (k + 1)
          (mul_pos hp (Real.exp_pos _)) x h

theorem mcPath_congr (mu sigma : ℝ) (z1 z2 : ℕ → ℝ) (p : ℝ) (k1 k2 n : ℕ)
    (h : ∀ j, j < n → z1 (k1 + j) = z2 (k2 + j)) :
    mcPath mu sigma z1 p k1 n = mcPath mu sigma z2 p k2 n := by
  induction n generalizing p k1 k2 with
  | zero => rfl
  | succ n ih =>
      have h0 : z1 k1 = z2 k2 := by simpa using h 0 (Nat.succ_pos n)
      simp only [mcPath, h0]
      congr 1
      refine ih _ _ _ fun j hj => ?_
      have := h (j + 1) (by omega)
      rw [show k1 + 1 + j = k1 + (j + 1) by omega,
        show k2 + 1 + j = k2 + (j + 1) by omega]
      exact this

/-- C10: whenever the simulation returns a grid and the anchor price (the
last observed close) is strictly positive, every entry of every simulated
column is strictly positive: each step multiplies the previous price by an
exponential, which is positive. -/
theorem monte_carlo_grid_positive (closes : List ℝ) (sims days : ℕ) (z : ℕ → ℝ) (k : ℕ)
    (S : ℝ) (g : List (List ℝ)) (hS : closes.getLast? = some S) (hpos : 0 < S)
    (hg : monte_carlo_simulation closes sims days z k = some g) :
    ∀ c ∈ g, ∀ x ∈ c, 0 < x := by
  unfold monte_carlo_simulation at hg
  rw [hS] at hg
  simp only [] at hg
  split at hg
  · rename_i hall
    have hgc := Option.some.inj hg
    subst hgc
    intro c hc
    obtain ⟨i, hi, rfl⟩ := List.mem_map.mp hc
    exact mcPath_pos _ _ _ _ _ _ hpos
  · exact absurd hg (by simp)

/-- Witness for C10 on a two-bar series, one path, one day. -/
theorem monte_carlo_grid_positive_witness :
    [(1:ℝ), 2].getLast? = some 2 ∧ (0:ℝ) < 2 ∧
    monte_carlo_simulation [(1:ℝ), 2] 1 1 (fun _ => 0) 0 = some [[2]] ∧
    (∀ c ∈ [[(2:ℝ)]], ∀ x ∈ c, 0 < x) :=
  ⟨rfl, by norm_num, rfl,
    monte_carlo_grid_positive [1, 2] 1 1 (fun _ => 0) 0 2 [[2]] rfl (by norm_num) rfl⟩

/-- C9 counterexample: called with pathCount = 0 the simulation neither
raises nor reports InvalidParameter; it silently returns an empty grid. -/
theorem monte_carlo_zero_paths_no_error :
    monte_carlo_simulation [(1:ℝ), 2, 4] 0 3 (fun _ => 0) 0 = some [] := rfl

/-- C9 amended: monte_carlo_simulation performs no input validation and
returns no typed errors: with pathCount = 0 it returns an empty grid with
no error, and with horizonDays = 0 (and at least one path on a nonempty
series) it crashes with an uncaught shape-mismatch exception (modelled
none) instead of reporting InvalidParameter; short series are likewise
never reported as InsufficientData. -/
theorem monte_carlo_no_validation (closes : List ℝ) (sims days : ℕ) (z : ℕ → ℝ) (k : ℕ)
    (hne : closes ≠ []) :
    monte_carlo_simulation closes 0 days z k = some [] ∧
    (1 ≤ sims → monte_carlo_simulation closes sims 0 z k = none) := by
  have h1 : closes.getLast?.isSome := by
    rw [List.getLast?_isSome]
    exact hne
  obtain ⟨S, hS⟩ := Option.isSome_iff_exists.mp h1
  constructor
  · unfold monte_carlo_simulation
    rw [hS]
    simp
  · intro hsims
    unfold monte_carlo_simulation
    rw [hS]
    simp only []
    rw [if_neg]
    simp [List.all_eq_true, mcPath_length]
    exact ⟨by omega, by rw [mcPath]; simp⟩

/-- Witness for C9 on a two-bar series. -/
theorem monte_carlo_no_validation_witness :
    monte_carlo_simulation [(1:ℝ), 2] 0 5 (fun _ => 0) 0 = some [] ∧
    monte_carlo_simulation [(1:ℝ), 2] 1 0 (fun _ => 0) 0 = none :=
  ⟨(monte_carlo_no_validation [1, 2] 1 5 (fun _ => 0) 0 (by simp)).1,
    (monte_carlo_no_validation [1, 2] 1 0 (fun _ => 0) 0 (by simp)).2 (by norm_num)⟩

/-- C2 amended: the simulation accepts no seed; it reads the global numpy
generator, modelled as a stream of draws with a cursor.  The output is a
function of the inputs and of the pathCount*(horizonDays-1) draws consumed
from the cursor position on: any two generator states that agree on that
draw window (for example, the states produced by seeding identically)
yield identical grids. -/
theorem monte_carlo_deterministic (closes : List ℝ) (sims days : ℕ) (z1 z2 : ℕ → ℝ)
    (k1 k2 : ℕ) (h : ∀ j, j < sims * (days - 1) → z1 (k1 + j) = z2 (k2 + j)) :
    monte_carlo_simulation closes sims days z1 k1 =
      monte_carlo_simulation closes sims days z2 k2 := by
  unfold monte_carlo_simulation
  cases hl : closes.getLast? with
  | none => rfl
  | some S =>
      simp only []
      have hcols : ∀ i ∈ List.range sims,
          mcPath (listMean (mcReturns closes)) (sampleStdR (mcReturns closes)) z1 S
            (k1 + i * (days - 1)) (days - 1) =
          mcPath (listMean (mcReturns closes)) (sampleStdR (mcReturns closes)) z2 S
            (k2 + i * (days - 1)) (days - 1) := by
        intro i hi
        have hi2 : i < sims := List.mem_range.mp hi
        refine mcPath_congr _ _ _ _ _ _ _ _ fun j hj => ?_
        have hb : i * (days - 1) + j < sims * (days - 1) := by
          have h3 : i * (days - 1) + j < (i + 1) * (days - 1) := by
            rw [Nat.succ_mul]
            omega
          have h4 : (i + 1) * (days - 1) ≤ sims * (days - 1) :=
            Nat.mul_le_mul_right _ hi2
          omega
        have h5 := h (i * (days - 1) + j) hb
        rw [show k1 + i * (days - 1) + j = k1 + (i * (days - 1) + j) by omega,
          show k2 + i * (days - 1) + j = k2 + (i * (days - 1) + j) by omega]
        exact h5
      rw [List.map_congr_left hcols]

/-- Witness for C2 amended: two cursor positions whose draw windows agree
give equal grids. -/
theorem monte_carlo_deterministic_witness :
    (∀ j, j < 1 * (2 - 1) → (fun _ : ℕ => (0:ℝ)) (0 + j) = (fun _ : ℕ => (0:ℝ)) (3 + j)) ∧
    monte_carlo_simulation [(1:ℝ), 2] 1 2 (fun _ => 0) 0 =
      monte_carlo_simulation [(1:ℝ), 2] 1 2 (fun _ => 0) 3 :=
  ⟨fun j hj => rfl,
    monte_carlo_deterministic [1, 2] 1 2 (fun _ => 0) (fun _ => 0) 0 3 fun j hj => rfl⟩


theorem reduceOption_zipWith_some {A B C : Type} (f : A → B → C) (l1 : List A) (l2 : List B) :
    (List.zipWith (fun a b => some (f a b)) l1 l2).reduceOption = List.zipWith f l1 l2 := by
  induction l1 generalizing l2 with
  | nil => simp
  | cons x t ih =>
      cases l2 with
      | nil => simp
      | cons y u => simp [List.reduceOption_cons_of_some, ih]

/-- C3 counterexample: the return series the Risk Analysis tab computes is
the percentage-return series, not the log-return series the specification
prescribes; on the two-bar series (1, 2) the tab computes the return 1
while the specified log return is ln 2. -/
theorem tab4_returns_not_log_returns :
    tab4_returns [(1:ℝ), 2] ≠ specLogReturns [(1:ℝ), 2] := by
  have h1 : tab4_returns [(1:ℝ), 2] = [1] := by
    simp [tab4_returns, pct_change_col]
    norm_num
  have h2 : specLogReturns [(1:ℝ), 2] = [Real.log 2] := by
    norm_num [specLogReturns]
  rw [h1, h2]
  intro h
  injection h with ha hb
  have := Real.log_two_lt_d9
  linarith

/-- C3 amended: the Risk Analysis tab computes its statistics over the
percentage-return series (element i equals close[i+1]/close[i] - 1, one
fewer element than the series): the annualized volatility is the sample
standard deviation of the percentage returns times sqrt 252, and the VaR
and Sharpe ratio are likewise taken over the percentage returns. -/
theorem tab4_stats_over_pct_returns (xs : List ℝ) (c : ℝ) :
    tab4_returns xs = pairwisePctReturns xs ∧
    tab4_annualized_volatility xs = sampleStdR (pairwisePctReturns xs) * Real.sqrt 252 ∧
    tab4_sharpe xs =
      listMean (pairwisePctReturns xs) / sampleStdR (pairwisePctReturns xs) * Real.sqrt 252 ∧
    tab4_var xs c =
      listMean (pairwisePctReturns xs) + sampleStdR (pairwisePctReturns xs) * stdNormPpf (1 - c) := by
  have h : tab4_returns xs = pairwisePctReturns xs := by
    cases xs with
    | nil => rfl
    | cons x t =>
        show (pct_change_col (x :: t)).reduceOption = _
        rw [show pct_change_col (x :: t) =
          none :: List.zipWith (fun a b => some (b / a - 1)) (x :: t) t from rfl]
        rw [List.reduceOption_cons_of_none, reduceOption_zipWith_some]
        rfl
  exact ⟨h, by unfold tab4_annualized_volatility; rw [h],
    by unfold tab4_sharpe; rw [h],
    by unfold tab4_var norm_ppf; rw [h]⟩

theorem stdNormPpf_mono (p q : ℝ) (hp : 0 < p) (hpq : p ≤ q) (hq : q < 1) :
    stdNormPpf p ≤ stdNormPpf q := by
  have hbdd : BddBelow {x | p ≤ stdNormCdf x} := by
    have ht : Filter.Tendsto stdNormCdf Filter.atBot (nhds 0) :=
      ProbabilityTheory.tendsto_cdf_atBot (ProbabilityTheory.gaussianReal 0 1)
    have hev : ∀ᶠ x in Filter.atBot, stdNormCdf x < p := ht.eventually_lt_const hp
    obtain ⟨x0, hx0⟩ := Filter.eventually_atBot.mp hev
    refine ⟨x0, fun y hy => ?_⟩
    by_contra hlt
    push_neg at hlt
    exact absurd hy (not_le.mpr (hx0 y (le_of_lt hlt)))
  have hne : {x | q ≤ stdNormCdf x}.Nonempty := by
    have ht : Filter.Tendsto stdNormCdf Filter.atTop (nhds 1) :=
      ProbabilityTheory.tendsto_cdf_atTop (ProbabilityTheory.gaussianReal 0 1)
    have hev : ∀ᶠ x in Filter.atTop, q < stdNormCdf x := ht.eventually_const_lt hq
    obtain ⟨x, hx⟩ := hev.exists
    exact ⟨x, le_of_lt hx⟩
  exact csInf_le_csInf hbdd hne fun x hx => le_trans hpq hx

/-- C6: with the return-distribution parameters mu and sigma >= 0 held
fixed, the parametric VaR mu + sigma * PPF(1 - confidence) is monotonically
more negative as the confidence level increases: for confidence levels
c1 < c2 in (0,1), VaR(c2) <= VaR(c1). -/
theorem var_monotone_in_confidence (mu sigma c1 c2 : ℝ) (hs : 0 ≤ sigma) (h0 : 0 < c1)
    (h12 : c1 < c2) (h1 : c2 < 1) :
    varParams mu sigma c2 ≤ varParams mu sigma c1 := by
  unfold varParams norm_ppf
  have hmono : stdNormPpf (1 - c2) ≤ stdNormPpf (1 - c1) :=
    stdNormPpf_mono (1 - c2) (1 - c1) (by linarith) (by linarith) (by linarith)
  have := mul_le_mul_of_nonneg_left hmono hs
  linarith

/-- Witness for C6 at mu = 0, sigma = 1, confidence levels 1/4 < 1/2. -/
theorem var_monotone_in_confidence_witness :
    (0:ℝ) ≤ 1 ∧ (0:ℝ) < 1/4 ∧ (1/4:ℝ) < 1/2 ∧ (1/2:ℝ) < 1 ∧
    varParams 0 1 (1/2) ≤ varParams 0 1 (1/4) :=
  ⟨by norm_num, by norm_num, by norm_num, by norm_num,
    var_monotone_in_confidence 0 1 (1/4) (1/2) (by norm_num) (by norm_num) (by norm_num)
      (by norm_num)⟩

/-- C7 counterexample: with two tickers of differing date ranges, the
comparison tab re-aligns the series on the union of their dates; ticker B,
which lacks the earliest date, is divided by the NaN its column holds in
the first aligned row, so B's entire normalized column — its first element
included — is NaN, not 1.0, and its length is the union length 3, not B's
own length 2. -/
theorem tab5_realigns_by_date :
    (tab5_normalized [("A", [(0, 10), (1, 20)]), ("B", [(1, 5), (2, 10)])]).lookup "B" =
      some [FV.nan, FV.nan, FV.nan] ∧ (FV.nan : FV ℚ) ≠ FV.fin 1 := by
  constructor
  · rfl
  · simp

/-- C7 amended: each aligned column is divided by its own entry in the
first aligned row; consequently, for a ticker whose series does contain the
earliest union date with a nonzero close there, the first element of its
normalized column is exactly 1.0; series are re-aligned by date, and a
ticker missing the earliest date gets NaN instead. -/
theorem tab5_first_element_one (input : List (String × List (ℕ × ℚ))) (t : String)
    (s : List (ℕ × ℚ)) (d0 : ℕ) (v : ℚ) (hts : (t, s) ∈ input)
    (hd : (unionDates input).head? = some d0) (hv : s.lookup d0 = some v) (hv0 : v ≠ 0) :
    ∃ col, (t, col) ∈ tab5_normalized input ∧ col.head? = some (FV.fin 1) := by
  refine ⟨(unionDates input).map fun d =>
    fdiv (cellOf s d) (match (unionDates input).head? with
      | some d1 => cellOf s d1
      | none => FV.nan), ?_, ?_⟩
  · rw [tab5_normalized]
    exact List.mem_map_of_mem _ hts
  · rw [List.head?_map, hd]
    simp [cellOf, hv, fdiv, hv0, div_self hv0]

/-- Witness for C7 amended on a single ticker containing the earliest
date. -/
theorem tab5_first_element_one_witness :
    (("A", [((0:ℕ), (10:ℚ)), (1, 20)]) ∈ [("A", [((0:ℕ), (10:ℚ)), (1, 20)])]) ∧
    (unionDates [("A", [((0:ℕ), (10:ℚ)), (1, 20)])]).head? = some 0 ∧
    ([((0:ℕ), (10:ℚ)), (1, 20)].lookup 0 = some 10) ∧ (10:ℚ) ≠ 0 ∧
    (∃ col, ("A", col) ∈ tab5_normalized [("A", [((0:ℕ), (10:ℚ)), (1, 20)])] ∧
      col.head? = some (FV.fin 1)) :=
  ⟨by simp, rfl, rfl, by norm_num,
    tab5_first_element_one [("A", [((0:ℕ), (10:ℚ)), (1, 20)])] "A"
      [((0:ℕ), (10:ℚ)), (1, 20)] 0 10 (by simp) rfl rfl (by norm_num)⟩


/-- C8: at every index where the Bollinger columns are defined (finite),
upper band >= middle band (SMA 20) >= lower band, and either band equals
the middle band exactly when the trailing 20-bar sample standard deviation
is 0. -/
theorem bollinger_band_order (xs : List ℝ) (i : ℕ) (u m l s : ℝ)
    (hm : (smaCol 20 xs).get? i = some (FV.fin m))
    (hs : (bollStdCol xs).get? i = some (FV.fin s))
    (hu : (bollUpperCol xs).get? i = some (FV.fin u))
    (hl : (bollLowerCol xs).get? i = some (FV.fin l)) :
    l ≤ m ∧ m ≤ u ∧ (u = m ↔ s = 0) ∧ (l = m ↔ s = 0) := by
  have hi : i < xs.length := by
    by_contra hge
    rw [bollStdCol, List.get?_eq_getElem?,
      List.getElem?_eq_none (by rw [rollingApply_length]; omega)] at hs
    exact Option.noConfusion hs
  have hs0 : 0 ≤ s := by
    rw [bollStdCol, rollingApply_get? _ _ _ _ hi] at hs
    by_cases hw : 20 ≤ i + 1
    · rw [if_pos hw] at hs
      simp only [Option.some.injEq, FV.fin.injEq] at hs
      rw [← hs]
      unfold sampleStdR
      exact Real.sqrt_nonneg _
    · rw [if_neg hw] at hs
      simp at hs
  have hub : u = m + s * 2 := by
    rw [bollUpperCol, List.get?_zipWith', hm, hs] at hu
    simp [fadd, fmul] at hu
    linarith
  have hlb : l = m - s * 2 := by
    rw [bollLowerCol, List.get?_zipWith', hm, hs] at hl
    simp [fsub, fadd, fneg, fmul] at hl
    linarith
  refine ⟨by linarith, by linarith, ?_, ?_⟩
  · constructor
    · intro h
      rw [hub] at h
      linarith
    · intro h
      rw [hub, h]
      ring
  · constructor
    · intro h
      rw [hlb] at h
      linarith
    · intro h
      rw [hlb, h]
      ring

/-- Witness for C8 on a constant 20-bar series, where the standard
deviation is 0 and all three bands coincide at 50. -/
theorem bollinger_band_order_witness :
    (smaCol 20 (List.replicate 20 (50:ℝ))).get? 19 = some (FV.fin 50) ∧
    (bollStdCol (List.replicate 20 (50:ℝ))).get? 19 = some (FV.fin 0) ∧
    (bollUpperCol (List.replicate 20 (50:ℝ))).get? 19 = some (FV.fin 50) ∧
    (bollLowerCol (List.replicate 20 (50:ℝ))).get? 19 = some (FV.fin 50) ∧
    ((50:ℝ) ≤ 50 ∧ (50:ℝ) ≤ 50 ∧ ((50:ℝ) = 50 ↔ (0:ℝ) = 0) ∧ ((50:ℝ) = 50 ↔ (0:ℝ) = 0)) := by
  have hm : (smaCol 20 (List.replicate 20 (50:ℝ))).get? 19 = some (FV.fin 50) := by
    rw [smaCol, rollingApply_get? _ _ _ 19 (by simp), if_pos (by norm_num)]
    norm_num [List.sum_replicate]
  have hstd : (bollStdCol (List.replicate 20 (50:ℝ))).get? 19 = some (FV.fin 0) := by
    rw [bollStdCol, rollingApply_get? _ _ _ 19 (by simp), if_pos (by norm_num)]
    norm_num [sampleStdR, List.sum_replicate, List.map_replicate]
  have hu : (bollUpperCol (List.replicate 20 (50:ℝ))).get? 19 = some (FV.fin 50) := by
    rw [bollUpperCol, List.get?_zipWith', hm, hstd]
    norm_num [fadd, fmul]
  have hl : (bollLowerCol (List.replicate 20 (50:ℝ))).get? 19 = some (FV.fin 50) := by
    rw [bollLowerCol, List.get?_zipWith', hm, hstd]
    norm_num [fsub, fadd, fneg, fmul]
  exact ⟨hm, hstd, hu, hl,
    bollinger_band_order (List.replicate 20 (50:ℝ)) 19 50 50 50 0 hm hstd hu hl⟩

/-- C2 counterexample: monte_carlo_simulation accepts no seed and draws
from the shared global generator, so two successive invocations with
identical inputs read different draw windows (the second starts where the
first stopped) and produce different grids. -/
theorem monte_carlo_successive_calls_differ :
    monte_carlo_simulation [(1:ℝ), 2, 3] 1 2 (fun n => (n : ℝ)) 0 ≠
      monte_carlo_simulation [(1:ℝ), 2, 3] 1 2 (fun n => (n : ℝ)) (1 * (2 - 1)) := by
  have hrets : mcReturns [(1:ℝ), 2, 3] = [Real.log 2, Real.log (3/2)] := by
    norm_num [mcReturns, pairwisePctReturns]
  have hσ : 0 < sampleStdR (mcReturns [(1:ℝ), 2, 3]) := by
    rw [hrets]
    unfold sampleStdR
    apply Real.sqrt_pos.mpr
    have hab : Real.log (3/2) < Real.log 2 := Real.log_lt_log (by norm_num) (by norm_num)
    simp only [List.map_cons, List.map_nil, List.sum_cons, List.sum_nil, List.length_cons,
      List.length_nil]
    push_cast
    norm_num
    nlinarith [pow_pos (show (0:ℝ) < Real.log 2 - Real.log (3/2) by linarith) 2]
  have hside : ∀ k0 : ℕ, monte_carlo_simulation [(1:ℝ), 2, 3] 1 2 (fun n => (n : ℝ)) k0 =
      some [[3, 3 * Real.exp (listMean (mcReturns [(1:ℝ), 2, 3]) +
        sampleStdR (mcReturns [(1:ℝ), 2, 3]) * (k0 : ℝ))]] := by
    intro k0
    unfold monte_carlo_simulation
    rw [show [(1:ℝ), 2, 3].getLast? = some 3 from rfl]
    simp [mcPath, List.range_succ]
  intro heq
  rw [hside 0, hside (1 * (2 - 1))] at heq
  simp only [Option.some.injEq, List.cons.injEq, and_true, true_and] at heq
  push_cast at heq
  have harg := Real.exp_eq_exp.mp (mul_left_cancel₀ (by norm_num : (3:ℝ) ≠ 0) heq)
  have hzero : sampleStdR (mcReturns [(1:ℝ), 2, 3]) = 0 := by
    rw [mul_zero] at harg
    nlinarith [harg]
  linarith

end StockApp
